import Mathlib

/-!
Shallow embedding of the Mood Signal Stabilization Engine of the
`music-mood` repository (`src/mood_detector.py`, `src/app.py`,
`src/music_manager.py`), together with theorems settling the claims of the
specification. Confidence scores and timestamps are modelled as rationals;
emotion labels as a fixed seven-constructor type, as in the source's
`mood_mapping`.
-/

namespace MusicMood

/-- The seven emotion labels (`mood_mapping` keys in `mood_detector.py`). -/
inductive Mood where
  | happy | sad | angry | fear | surprise | disgust | neutral
deriving DecidableEq, Repr

/-- One accepted mood observation, as appended by `_update_mood_history`. -/
structure MoodObservation where
  mood : Mood
  confidence : ℚ
  timestamp : ℚ
deriving DecidableEq, Repr

/-- Python `l[-n:]`: the last `n` entries (the whole list when shorter). -/
def lastN (n : ℕ) (l : List α) : List α := l.drop (l.length - n)

/-- Default per-emotion intensity multipliers (`emotion_intensity`). -/
def emotion_intensity : Mood → ℚ
  | .happy => 1
  | .surprise => 4/5
  | .neutral => 1/2
  | .disgust => 3/5
  | .fear => 7/10
  | .sad => 6/5
  | .angry => 1

/-- Default per-emotion confidence thresholds (`emotion_thresholds`). -/
def emotion_thresholds : Mood → ℚ
  | .sad => 3/20
  | .happy => 1/4
  | .angry => 3/10
  | .fear => 1/4
  | .surprise => 1/4
  | .disgust => 1/4
  | .neutral => 1/5

/-- The global confidence threshold (`confidence_threshold = 0.20`),
the fallback of `emotion_thresholds.get` for labels outside the table. -/
def confidence_threshold : ℚ := 1/5

/-- `_is_mood_stable` (mood_detector.py lines 235-259), translated with the
source's exact control flow: the sad branch returns early on
`confidence > 0.25`, returns `confidence > 0.15` when sad is among the last
two history moods, and otherwise falls through to the generic rules. -/
def is_mood_stable (hist : List MoodObservation) (new_mood : Mood)
    (confidence : ℚ) : Bool :=
  if new_mood = Mood.sad ∧ confidence > 1/4 then
    true
  else if new_mood = Mood.sad ∧ Mood.sad ∈ (lastN 2 hist).map (·.mood) then
    decide (confidence > 3/20)
  else if confidence > 7/10 then
    true
  else if new_mood ∈ (lastN 3 hist).map (·.mood) then
    decide (confidence > 3/10)
  else
    decide (confidence > 1/2)

/-- The Stability Gate exactly as the claim words it: a sad candidate is
accepted iff `c > 0.25` or (sad among the last 2 history entries and
`c > 0.15`); otherwise accept on `c > 0.7`; otherwise, a recently seen
label (last 3 entries) is accepted on `c > 0.3`; otherwise only on
`c > 0.5`. -/
def spec_accept (hist : List MoodObservation) (label : Mood) (c : ℚ) : Bool :=
  if label = Mood.sad then
    decide (c > 1/4) ||
      (decide (Mood.sad ∈ (lastN 2 hist).map (·.mood)) && decide (c > 3/20))
  else if c > 7/10 then
    true
  else if label ∈ (lastN 3 hist).map (·.mood) then
    decide (c > 3/10)
  else
    decide (c > 1/2)

/-- C1: the code's gate agrees with the claim's ordered rules on every
input, and a non-sad candidate whose label is not among the last 3 history
entries is never accepted with confidence ≤ 0.5. -/
theorem is_mood_stable_spec (hist : List MoodObservation) (label : Mood)
    (c : ℚ) :
    is_mood_stable hist label c = spec_accept hist label c ∧
    (label ≠ Mood.sad → label ∉ (lastN 3 hist).map (·.mood) → c ≤ 1/2 →
      is_mood_stable hist label c = false) := by
  have key : is_mood_stable hist label c = spec_accept hist label c := by
    by_cases hs : label = Mood.sad
    · subst hs
      by_cases h25 : (1:ℚ)/4 < c
      · unfold is_mood_stable spec_accept
        rw [if_pos ⟨rfl, h25⟩, if_pos rfl, decide_eq_true h25, Bool.true_or]
      · by_cases h2 : Mood.sad ∈ (lastN 2 hist).map (·.mood)
        · unfold is_mood_stable spec_accept
          rw [if_neg (fun h => h25 h.2), if_pos ⟨rfl, h2⟩, if_pos rfl,
            decide_eq_false h25, Bool.false_or, decide_eq_true h2,
            Bool.true_and]
        · have h7 : ¬ ((7:ℚ)/10 < c) := fun h => h25 (by linarith)
          have h3 : ¬ ((3:ℚ)/10 < c) := fun h => h25 (by linarith)
          have h5 : ¬ ((1:ℚ)/2 < c) := fun h => h25 (by linarith)
          unfold is_mood_stable spec_accept
          rw [if_neg (fun h => h25 h.2), if_neg (fun h => h2 h.2), if_neg h7,
            if_pos rfl, decide_eq_false h25, decide_eq_false h2,
            Bool.false_and, Bool.or_false]
          by_cases h3m : Mood.sad ∈ (lastN 3 hist).map (·.mood)
          · rw [if_pos h3m, decide_eq_false h3]
          · rw [if_neg h3m, decide_eq_false h5]
    · unfold is_mood_stable spec_accept
      rw [if_neg (fun h => hs h.1), if_neg (fun h => hs h.1), if_neg hs]
  refine ⟨key, ?_⟩
  intro hs h3 h5
  have h7 : ¬ ((7:ℚ)/10 < c) := not_lt.mpr (by linarith)
  unfold is_mood_stable
  rw [if_neg (fun h => hs h.1), if_neg (fun h => hs h.1), if_neg h7, if_neg h3,
    decide_eq_false (not_lt.mpr h5)]

/-- Witness for `is_mood_stable_spec`: a brand-new `happy` candidate with
confidence 0.4 is rejected. -/
theorem is_mood_stable_spec_witness :
    is_mood_stable [] Mood.happy (2/5) = false :=
  (is_mood_stable_spec [] Mood.happy (2/5)).2 (by decide) (by decide)
    (by norm_num)

/-! ## Dominant emotion selection (`_get_dominant_emotion`) -/

/-- Stable insertion step for sorting by score descending: `x` is placed
before the first element whose score is not greater than `x`'s, so elements
with equal scores keep their original relative order (as Python's stable
`sorted(..., reverse=True)` does). -/
def insertDesc (x : Mood × ℚ) : List (Mood × ℚ) → List (Mood × ℚ)
  | [] => [x]
  | y :: ys => if y.2 > x.2 then y :: insertDesc x ys else x :: y :: ys

/-- Stable sort by score descending, modelling
`sorted(emotion_scores.items(), key=lambda x: x[1], reverse=True)`. -/
def sortDesc : List (Mood × ℚ) → List (Mood × ℚ)
  | [] => []
  | x :: xs => insertDesc x (sortDesc xs)

/-- `_get_dominant_emotion` (mood_detector.py lines 212-233). The empty
match arm is the `if not emotion_scores` guard (a mapping is empty iff its
sorted item list is). The ambiguity check runs only when the sorted list
has at least two items (`if len(sorted_emotions) > 1`). -/
def get_dominant_emotion (intensity : Mood → ℚ) (scores : List (Mood × ℚ)) :
    Mood × ℚ :=
  match sortDesc scores with
  | [] => (Mood.neutral, 0)
  | (pm, ps) :: rest =>
    match rest with
    | (_, ss) :: _ =>
      if ps - ss < 1/10 ∧ ps < 2/5 then (Mood.neutral, ps)
      else (pm, ps * intensity pm)
    | [] => (pm, ps * intensity pm)

/-- Dominant-emotion selection as the claim words it: `secondary` defaults
to 0 when fewer than two labels are present, and the ambiguity rule is
applied in that case as well. -/
def spec_select (intensity : Mood → ℚ) (scores : List (Mood × ℚ)) :
    Mood × ℚ :=
  match sortDesc scores with
  | [] => (Mood.neutral, 0)
  | (pm, ps) :: rest =>
    let ss : ℚ := match rest with | [] => 0 | (_, s) :: _ => s
    if ps - ss < 1/10 ∧ ps < 2/5 then (Mood.neutral, ps)
    else (pm, ps * intensity pm)

/-- On a singleton mapping with a score below 0.1 the claim demands
`(neutral, score)`, but the code skips the ambiguity check when fewer than
two labels are present and returns the intensity-weighted label. -/
theorem get_dominant_emotion_counterexample :
    get_dominant_emotion emotion_intensity [(Mood.happy, 1/20)] =
        (Mood.happy, 1/20) ∧
      get_dominant_emotion emotion_intensity [(Mood.happy, 1/20)] ≠
        (Mood.neutral, 1/20) ∧
      spec_select emotion_intensity [(Mood.happy, 1/20)] =
        (Mood.neutral, 1/20) := by
  refine ⟨?_, ?_, ?_⟩
  · norm_num [get_dominant_emotion, sortDesc, insertDesc, emotion_intensity]
  · norm_num [get_dominant_emotion, sortDesc, insertDesc, emotion_intensity]
    decide
  · norm_num [spec_select, sortDesc, insertDesc]

/-- Permutation fact for `insertDesc`. -/
theorem insertDesc_perm (x : Mood × ℚ) (l : List (Mood × ℚ)) :
    List.Perm (insertDesc x l) (x :: l) := by
  induction l with
  | nil => simp [insertDesc]
  | cons y ys ih =>
    unfold insertDesc
    split
    · exact ((ih.cons y).trans (List.Perm.swap x y ys))
    · exact List.Perm.refl _

theorem insertDesc_sorted (x : Mood × ℚ) (l : List (Mood × ℚ))
    (hl : l.Pairwise (fun a b => b.2 ≤ a.2)) :
    (insertDesc x l).Pairwise (fun a b => b.2 ≤ a.2) := by
  induction l with
  | nil => simp [insertDesc]
  | cons y ys ih =>
    unfold insertDesc
    rcases List.pairwise_cons.mp hl with ⟨hy, hys⟩
    split
    · rename_i hgt
      refine List.pairwise_cons.mpr ⟨?_, ih hys⟩
      intro z hz
      rcases List.mem_cons.mp ((insertDesc_perm x ys).mem_iff.mp hz) with h | h
      · subst h; exact le_of_lt hgt
      · exact hy z h
    · rename_i hle
      push_neg at hle
      refine List.pairwise_cons.mpr ⟨?_, hl⟩
      intro z hz
      rcases List.mem_cons.mp hz with h | h
      · subst h; exact hle
      · exact le_trans (hy z h) hle

theorem sortDesc_perm (l : List (Mood × ℚ)) : List.Perm (sortDesc l) l := by
  induction l with
  | nil => exact List.Perm.refl _
  | cons x xs ih => exact (insertDesc_perm x (sortDesc xs)).trans (ih.cons x)

theorem sortDesc_sorted (l : List (Mood × ℚ)) :
    (sortDesc l).Pairwise (fun a b => b.2 ≤ a.2) := by
  induction l with
  | nil => simp [sortDesc]
  | cons x xs ih => exact insertDesc_sorted x (sortDesc xs) ih

/-- C4 (amended): the selector returns `(neutral, 0)` on an empty mapping;
the ambiguity rule fires only when at least two labels are present; a
singleton mapping always yields its label with intensity-weighted score.
`sortDesc` really is a descending ordering of the input mapping. -/
theorem get_dominant_emotion_spec (intensity : Mood → ℚ)
    (scores : List (Mood × ℚ)) :
    (List.Perm (sortDesc scores) scores ∧
      (sortDesc scores).Pairwise (fun a b => b.2 ≤ a.2)) ∧
    (scores = [] → get_dominant_emotion intensity scores = (Mood.neutral, 0)) ∧
    (∀ pm ps, sortDesc scores = [(pm, ps)] →
      get_dominant_emotion intensity scores = (pm, ps * intensity pm)) ∧
    (∀ pm ps sm ss rest, sortDesc scores = (pm, ps) :: (sm, ss) :: rest →
      get_dominant_emotion intensity scores =
        if ps - ss < 1/10 ∧ ps < 2/5 then (Mood.neutral, ps)
        else (pm, ps * intensity pm)) ∧
    (emotion_intensity Mood.happy = 1 ∧ emotion_intensity Mood.surprise = 4/5 ∧
      emotion_intensity Mood.neutral = 1/2 ∧
      emotion_intensity Mood.disgust = 3/5 ∧
      emotion_intensity Mood.fear = 7/10 ∧ emotion_intensity Mood.sad = 6/5 ∧
      emotion_intensity Mood.angry = 1) := by
  refine ⟨⟨sortDesc_perm scores, sortDesc_sorted scores⟩, ?_, ?_, ?_, ?_⟩
  · intro h; subst h; rfl
  · intro pm ps h
    unfold get_dominant_emotion
    rw [h]
  · intro pm ps sm ss rest h
    unfold get_dominant_emotion
    rw [h]
  · exact ⟨rfl, rfl, rfl, rfl, rfl, rfl, rfl⟩

/-- Witness for `get_dominant_emotion_spec`: a clear two-label race. -/
theorem get_dominant_emotion_spec_witness :
    get_dominant_emotion emotion_intensity
        [(Mood.happy, 1/2), (Mood.sad, 3/10)] = (Mood.happy, 1/2) := by
  have h := (get_dominant_emotion_spec emotion_intensity
      [(Mood.happy, 1/2), (Mood.sad, 3/10)]).2.2.2.1 Mood.happy (1/2)
      Mood.sad (3/10) []
      (by norm_num [sortDesc, insertDesc])
  rw [h]
  norm_num [emotion_intensity]

/-! ## Emotion smoothing (`_smooth_emotions`) -/

/-- One label's bounded history push in `_smooth_emotions`: append the raw
score, then `pop(0)` once when the length exceeds 5. -/
def pushScore (h : List ℚ) (s : ℚ) : List ℚ :=
  let h1 := h ++ [s]
  if h1.length > 5 then h1.tail else h1

/-- The smoothing weights of `_smooth_emotions`:
the powers of gamma over `range(n)`, then reversed in place. -/
def smooth_weights (γ : ℚ) (n : ℕ) : List ℚ :=
  ((List.range n).map (fun i => γ ^ i)).reverse

/-- The smoothed score `_smooth_emotions` computes for one label whose
post-push history is `h`: the weight-normalized sum over the zipped
weights and history when the history holds more than one entry, the raw
score otherwise. -/
def smoothed_value (γ : ℚ) (h : List ℚ) (s : ℚ) : ℚ :=
  if h.length > 1 then
    (List.zipWith (· * ·) (smooth_weights γ h.length) h).sum /
      (smooth_weights γ h.length).sum
  else s

/-- Per-label step of `_smooth_emotions` (mood_detector.py lines 185-210):
push the raw score, then smooth over the updated history. -/
def smooth_emotion (γ : ℚ) (h : List ℚ) (s : ℚ) : ℚ × List ℚ :=
  (smoothed_value γ (pushScore h s) s, pushScore h s)

theorem zipWith_mul_rev (a b : List ℚ) (h : a.length = b.length) :
    (List.zipWith (· * ·) a b).reverse =
      List.zipWith (· * ·) a.reverse b.reverse := by
  induction a generalizing b with
  | nil =>
    cases b with
    | nil => rfl
    | cons y ys => simp at h
  | cons x xs ih =>
    cases b with
    | nil => simp at h
    | cons y ys =>
      have hlen : xs.length = ys.length := by simpa using h
      simp only [List.zipWith_cons_cons, List.reverse_cons]
      rw [ih ys hlen, List.zipWith_append _ _ _ _ _ (by simp [hlen])]
      simp

theorem zipWith_mul_reverse_sum (a b : List ℚ) (hab : a.length = b.length) :
    (List.zipWith (· * ·) a.reverse b).sum =
      (List.zipWith (· * ·) a b.reverse).sum := by
  have hrev : (List.zipWith (· * ·) a.reverse b).reverse =
      List.zipWith (· * ·) a b.reverse := by
    rw [zipWith_mul_rev a.reverse b (by simpa using hab)]
    simp
  calc (List.zipWith (· * ·) a.reverse b).sum
      = (List.zipWith (· * ·) a.reverse b).reverse.sum :=
        (List.sum_reverse _).symm
    _ = (List.zipWith (· * ·) a b.reverse).sum := by rw [hrev]

theorem sum_map_div (l : List ℚ) (c : ℚ) :
    (l.map (fun w => w / c)).sum = l.sum / c := by
  induction l with
  | nil => simp
  | cons x xs ih => simp [ih, add_div]

/-- C5: a push caps the history at 5 entries evicting the front; a
one-entry history yields the raw score unmodified; a longer history yields
the weighted average of the history, newest last, under weights that are
powers of gamma over the reversed order, normalized to sum to 1. -/
theorem smooth_emotion_spec (γ : ℚ) (h : List ℚ) (s : ℚ) (hγ : 0 < γ)
    (hcap : h.length ≤ 5) :
    pushScore h s = (if 5 ≤ h.length then h.tail ++ [s] else h ++ [s]) ∧
    (pushScore h s).length ≤ 5 ∧
    ((pushScore h s).length = 1 → (smooth_emotion γ h s).1 = s) ∧
    (1 < (pushScore h s).length →
      (smooth_emotion γ h s).1 =
          (List.zipWith (· * ·)
              ((List.range (pushScore h s).length).map (fun i => γ ^ i))
              (pushScore h s).reverse).sum /
            ((List.range (pushScore h s).length).map (fun i => γ ^ i)).sum ∧
        (((List.range (pushScore h s).length).map (fun i => γ ^ i)).map
            (fun w => w /
              ((List.range (pushScore h s).length).map
                (fun i => γ ^ i)).sum)).sum = 1) := by
  have hpush : pushScore h s =
      (if 5 ≤ h.length then h.tail ++ [s] else h ++ [s]) := by
    unfold pushScore
    by_cases h5 : 5 ≤ h.length
    · rw [if_pos (by simp; omega), if_pos h5]
      cases h with
      | nil => simp at h5
      | cons x xs => rfl
    · rw [if_neg (by simp; omega), if_neg h5]
  refine ⟨hpush, ?_, ?_, ?_⟩
  · rw [hpush]
    by_cases h5 : 5 ≤ h.length
    · rw [if_pos h5]
      cases h with
      | nil => simp at h5
      | cons x xs => simp at hcap ⊢; omega
    · rw [if_neg h5]; simp; omega
  · intro h1
    unfold smooth_emotion smoothed_value
    rw [if_neg (by omega)]
  · intro h1
    constructor
    · unfold smooth_emotion smoothed_value
      rw [if_pos (by omega)]
      unfold smooth_weights
      rw [zipWith_mul_reverse_sum _ _ (by simp), List.sum_reverse]
    · have hW :
          0 < ((List.range (pushScore h s).length).map (fun i => γ ^ i)).sum := by
        apply List.sum_pos
        · intro x hx
          rcases List.mem_map.mp hx with ⟨i, _, rfl⟩
          exact pow_pos hγ i
        · exact List.length_pos.mp (by simp; omega)
      rw [sum_map_div]
      exact div_self (ne_of_gt hW)

/-- Witness for `smooth_emotion_spec`: pushing 0.9 onto history
`[0.9, 0.9]` with the default gamma 0.6. -/
theorem smooth_emotion_spec_witness :
    pushScore [9/10, 9/10] (9/10) =
        (if 5 ≤ ([9/10, 9/10] : List ℚ).length
          then (([9/10, 9/10] : List ℚ)).tail ++ [9/10]
          else ([9/10, 9/10] : List ℚ) ++ [9/10]) ∧
      (pushScore [9/10, 9/10] (9/10)).length ≤ 5 := by
  have h := smooth_emotion_spec (3/5) [9/10, 9/10] (9/10) (by norm_num)
    (by simp)
  exact ⟨h.1, h.2.1⟩

/-! ## Mood history ring (`_update_mood_history`) -/

/-- `_update_mood_history` (mood_detector.py lines 140-151): append the
accepted observation, then `pop(0)` once when the length exceeds 50. -/
def update_mood_history (hist : List MoodObservation) (m : Mood) (c t : ℚ) :
    List MoodObservation :=
  let h1 := hist ++ [⟨m, c, t⟩]
  if h1.length > 50 then h1.tail else h1

/-- Replaying a whole sequence of accepted observations through
`_update_mood_history`, in order. -/
def replay_history (hist : List MoodObservation) :
    List MoodObservation → List MoodObservation
  | [] => hist
  | o :: rest =>
    replay_history (update_mood_history hist o.mood o.confidence o.timestamp)
      rest

theorem lastN_append_lastN (n : ℕ) (a b : List α) :
    lastN n (lastN n a ++ b) = lastN n (a ++ b) := by
  unfold lastN
  rw [← List.drop_append_of_le_length (Nat.sub_le a.length n),
    List.drop_drop]
  congr 1
  simp only [List.length_drop, List.length_append]
  omega

theorem update_mood_history_eq (hist : List MoodObservation) (m : Mood)
    (c t : ℚ) :
    update_mood_history hist m c t =
      if 50 ≤ hist.length then hist.tail ++ [⟨m, c, t⟩]
      else hist ++ [⟨m, c, t⟩] := by
  unfold update_mood_history
  by_cases h5 : 50 ≤ hist.length
  · rw [if_pos (by simp; omega), if_pos h5]
    cases hist with
    | nil => simp at h5
    | cons x xs => rfl
  · rw [if_neg (by simp; omega), if_neg h5]

theorem update_mood_history_lastN (hist : List MoodObservation) (m : Mood)
    (c t : ℚ) (hlen : hist.length ≤ 50) :
    update_mood_history hist m c t = lastN 50 (hist ++ [⟨m, c, t⟩]) := by
  unfold update_mood_history lastN
  by_cases h5 : 50 ≤ hist.length
  · rw [if_pos (by simp; omega)]
    have h1 : (hist ++ [(⟨m, c, t⟩ : MoodObservation)]).length - 50 = 1 := by
      simp; omega
    rw [h1, ← List.drop_one]
  · rw [if_neg (by simp; omega)]
    have h0 : (hist ++ [(⟨m, c, t⟩ : MoodObservation)]).length - 50 = 0 := by
      simp; omega
    rw [h0, List.drop_zero]

theorem lastN_length_le (n : ℕ) (l : List α) : (lastN n l).length ≤ n := by
  unfold lastN
  rw [List.length_drop]
  omega

theorem replay_history_lastN (obs : List MoodObservation) :
    ∀ hist : List MoodObservation, hist.length ≤ 50 →
      replay_history hist obs = lastN 50 (hist ++ obs) := by
  induction obs with
  | nil =>
    intro hist hlen
    have h0 : hist.length - 50 = 0 := by omega
    show hist = lastN 50 (hist ++ [])
    rw [List.append_nil]
    unfold lastN
    rw [h0, List.drop_zero]
  | cons o rest ih =>
    intro hist hlen
    show replay_history
        (update_mood_history hist o.mood o.confidence o.timestamp) rest = _
    rw [ih _ (by
      rw [update_mood_history_lastN hist _ _ _ hlen]
      exact lastN_length_le _ _)]
    rw [update_mood_history_lastN hist _ _ _ hlen]
    have heta : (⟨o.mood, o.confidence, o.timestamp⟩ : MoodObservation) = o :=
      rfl
    rw [heta, lastN_append_lastN]
    congr 1
    simp

/-- C6: after any sequence of appends starting from an empty ring, the
ring is exactly the last 50 appended observations (so its length never
exceeds 50 and eviction is strictly oldest-first); a single append drops
the front exactly when the ring is full; and non-decreasing appended
timestamps stay non-decreasing in the ring. -/
theorem mood_history_ring_spec (obs : List MoodObservation) :
    (∀ hist m c t, update_mood_history hist m c t =
        if 50 ≤ hist.length then hist.tail ++ [⟨m, c, t⟩]
        else hist ++ [⟨m, c, t⟩]) ∧
    replay_history [] obs = lastN 50 obs ∧
    (replay_history [] obs).length ≤ 50 ∧
    ((obs.map (fun o => o.timestamp)).Pairwise (· ≤ ·) →
      ((replay_history [] obs).map (fun o => o.timestamp)).Pairwise
        (· ≤ ·)) := by
  have hrep : replay_history [] obs = lastN 50 obs := by
    have h := replay_history_lastN obs [] (by simp)
    simpa using h
  refine ⟨update_mood_history_eq, hrep, ?_, ?_⟩
  · rw [hrep]
    exact lastN_length_le _ _
  · intro hsorted
    rw [hrep]
    unfold lastN
    exact hsorted.sublist ((List.drop_sublist _ _).map _)

/-- Witness for `mood_history_ring_spec`: two observations appended in
timestamp order stay ordered. -/
theorem mood_history_ring_spec_witness :
    ((replay_history []
        [⟨Mood.happy, 1/2, 1⟩, ⟨Mood.sad, 1/2, 2⟩]).map
      (fun o => o.timestamp)).Pairwise (· ≤ ·) :=
  (mood_history_ring_spec [⟨Mood.happy, 1/2, 1⟩, ⟨Mood.sad, 1/2, 2⟩]).2.2.2
    (by norm_num)

/-! ## Stable-mood windowed voter (`get_stable_mood`) -/

/-- The in-window entries of `get_stable_mood`: history entries with
`current_time - timestamp <= window_seconds`, in history order. -/
def within_window (hist : List MoodObservation) (window now : ℚ) :
    List MoodObservation :=
  hist.filter (fun e => now - e.timestamp ≤ window)

/-- One combined `mood_weights`/`mood_counts` dictionary update: add the
weight and bump the count on the label's entry, inserting a fresh entry at
the back when the label is new (Python dict insertion order). The two
Python dicts always hold the same keys and are updated together, so they
are modelled as one association list of (label, weight, count). -/
def upsertWeight : List (Mood × ℚ × ℕ) → Mood → ℚ → List (Mood × ℚ × ℕ)
  | [], m, w => [(m, w, 1)]
  | p :: rest, m, w =>
    if p.1 = m then (p.1, p.2.1 + w, p.2.2 + 1) :: rest
    else p :: upsertWeight rest m w

/-- The accumulation loop of `get_stable_mood` over the
(label, final-weight) pairs of the in-window entries. -/
def accW (ps : List (Mood × ℚ)) : List (Mood × ℚ × ℕ) :=
  ps.foldl (fun acc p => upsertWeight acc p.1 p.2) []

/-- `final_weight = confidence * time_weight * intensity[mood]` with
`time_weight = (i + 1) / total`. -/
def entry_weight (intensity : Mood → ℚ) (total : ℕ) (i : ℕ)
    (e : MoodObservation) : ℚ :=
  e.confidence * (((i : ℚ) + 1) / (total : ℚ)) * intensity e.mood

/-- The (label, final-weight) pairs of the enumerated in-window entries,
oldest first. -/
def weight_pairs (intensity : Mood → ℚ) (entries : List MoodObservation) :
    List (Mood × ℚ) :=
  entries.enum.map
    (fun p => (p.2.mood, entry_weight intensity entries.length p.1 p.2))

/-- Python's `max(items, key=lambda x: x[1])` over the weight dict: the
first item attaining the maximal weight (replacement only on strictly
greater keeps the first). -/
def pyMax : List (Mood × ℚ × ℕ) → Option (Mood × ℚ × ℕ)
  | [] => none
  | x :: xs => some (xs.foldl (fun b p => if b.2.1 < p.2.1 then p else b) x)

/-- `get_stable_mood` (mood_detector.py lines 270-313): filter the history
to the trailing window; when no weights accumulate (equivalently, no
in-window entry) return the current mood; otherwise take the
maximum-weight label and override a non-neutral winner with fewer than 2
occurrences to neutral. -/
def get_stable_mood (intensity : Mood → ℚ) (hist : List MoodObservation)
    (current : Mood) (window now : ℚ) : Mood :=
  match pyMax (accW (weight_pairs intensity (within_window hist window now)))
    with
  | none => current
  | some b => if b.1 ≠ Mood.neutral ∧ b.2.2 < 2 then Mood.neutral else b.1

/-- First-match weight lookup in the association list (the dict read
`mood_weights[k]`; keys are unique in a built dict). -/
def wOf : List (Mood × ℚ × ℕ) → Mood → ℚ
  | [], _ => 0
  | p :: rest, m => if p.1 = m then p.2.1 else wOf rest m

/-- First-match count lookup (`mood_counts[k]`). -/
def cOf : List (Mood × ℚ × ℕ) → Mood → ℕ
  | [], _ => 0
  | p :: rest, m => if p.1 = m then p.2.2 else cOf rest m

/-- Total weight contributed to a label by a pair list. -/
def wsum (ps : List (Mood × ℚ)) (m : Mood) : ℚ :=
  ((ps.filter (fun p => p.1 = m)).map (fun p => p.2)).sum

/-- Number of pairs carrying a label. -/
def csum (ps : List (Mood × ℚ)) (m : Mood) : ℕ :=
  (ps.filter (fun p => p.1 = m)).length

/-- The claim's accumulated per-label weight over the in-window entries. -/
def spec_weight (intensity : Mood → ℚ) (entries : List MoodObservation)
    (m : Mood) : ℚ :=
  ((entries.enum.filter (fun p => p.2.mood = m)).map
    (fun p => entry_weight intensity entries.length p.1 p.2)).sum

/-- The claim's per-label occurrence count over the in-window entries. -/
def spec_count (entries : List MoodObservation) (m : Mood) : ℕ :=
  (entries.filter (fun e => e.mood = m)).length

theorem wOf_upsert (A : List (Mood × ℚ × ℕ)) (m x : Mood) (w : ℚ) :
    wOf (upsertWeight A m w) x =
      if x = m then wOf A x + w else wOf A x := by
  induction A with
  | nil =>
    by_cases hx : x = m
    · simp [upsertWeight, wOf, hx]
    · simp [upsertWeight, wOf, hx, Ne.symm hx]
  | cons a rest ih =>
    by_cases h1 : a.1 = m
    · by_cases h2 : x = m
      · subst h2; simp [upsertWeight, wOf, h1]
      · simp [upsertWeight, wOf, h1, h2, Ne.symm h2]
    · by_cases h3 : a.1 = x
      · have h2 : ¬ x = m := fun hh => h1 (h3.trans hh)
        simp [upsertWeight, wOf, h1, h3, h2]
      · simp [upsertWeight, wOf, h1, h3, ih]

theorem cOf_upsert (A : List (Mood × ℚ × ℕ)) (m x : Mood) (w : ℚ) :
    cOf (upsertWeight A m w) x =
      if x = m then cOf A x + 1 else cOf A x := by
  induction A with
  | nil =>
    by_cases hx : x = m
    · simp [upsertWeight, cOf, hx]
    · simp [upsertWeight, cOf, hx, Ne.symm hx]
  | cons a rest ih =>
    by_cases h1 : a.1 = m
    · by_cases h2 : x = m
      · subst h2; simp [upsertWeight, cOf, h1]
      · simp [upsertWeight, cOf, h1, h2, Ne.symm h2]
    · by_cases h3 : a.1 = x
      · have h2 : ¬ x = m := fun hh => h1 (h3.trans hh)
        simp [upsertWeight, cOf, h1, h3, h2]
      · simp [upsertWeight, cOf, h1, h3, ih]

theorem keys_upsert (A : List (Mood × ℚ × ℕ)) (m : Mood) (w : ℚ) :
    (upsertWeight A m w).map (fun p => p.1) =
      if m ∈ A.map (fun p => p.1) then A.map (fun p => p.1)
      else A.map (fun p => p.1) ++ [m] := by
  induction A with
  | nil => simp [upsertWeight]
  | cons a rest ih =>
    by_cases h1 : a.1 = m
    · simp [upsertWeight, h1]
    · have hm : (m ∈ (a :: rest).map (fun p => p.1)) ↔
          m ∈ rest.map (fun p => p.1) := by
        simp [List.mem_cons]
        intro hh
        exact absurd hh.symm h1
      by_cases h2 : m ∈ rest.map (fun p => p.1)
      · rw [if_pos (hm.mpr h2)]
        simp [upsertWeight, h1, ih, h2]
      · rw [if_neg (fun hh => h2 (hm.mp hh))]
        simp [upsertWeight, h1, ih, h2]

theorem wOf_accW_aux (ps : List (Mood × ℚ)) :
    ∀ (A : List (Mood × ℚ × ℕ)) (x : Mood),
      wOf (ps.foldl (fun acc p => upsertWeight acc p.1 p.2) A) x =
        wOf A x + wsum ps x := by
  induction ps with
  | nil => intro A x; simp [wsum]
  | cons p ps ih =>
    intro A x
    simp only [List.foldl_cons]
    rw [ih, wOf_upsert]
    by_cases h : x = p.1
    · rw [if_pos h]
      have hf : wsum (p :: ps) x = p.2 + wsum ps x := by
        simp [wsum, List.filter_cons, h.symm]
      rw [hf]; ring
    · rw [if_neg h]
      have h' : ¬ p.1 = x := fun hh => h hh.symm
      have hf : wsum (p :: ps) x = wsum ps x := by
        simp [wsum, List.filter_cons, h']
      rw [hf]

theorem cOf_accW_aux (ps : List (Mood × ℚ)) :
    ∀ (A : List (Mood × ℚ × ℕ)) (x : Mood),
      cOf (ps.foldl (fun acc p => upsertWeight acc p.1 p.2) A) x =
        cOf A x + csum ps x := by
  induction ps with
  | nil => intro A x; simp [csum]
  | cons p ps ih =>
    intro A x
    simp only [List.foldl_cons]
    rw [ih, cOf_upsert]
    by_cases h : x = p.1
    · rw [if_pos h]
      have hf : csum (p :: ps) x = 1 + csum ps x := by
        simp [csum, List.filter_cons, h.symm]
        omega
      rw [hf]; omega
    · rw [if_neg h]
      have h' : ¬ p.1 = x := fun hh => h hh.symm
      have hf : csum (p :: ps) x = csum ps x := by
        simp [csum, List.filter_cons, h']
      rw [hf]

theorem mem_keys_accW_aux (ps : List (Mood × ℚ)) :
    ∀ (A : List (Mood × ℚ × ℕ)) (x : Mood),
      (x ∈ (ps.foldl (fun acc p => upsertWeight acc p.1 p.2) A).map
          (fun p => p.1)) ↔
        x ∈ A.map (fun p => p.1) ∨ x ∈ ps.map (fun p => p.1) := by
  induction ps with
  | nil => intro A x; simp
  | cons p ps ih =>
    intro A x
    simp only [List.foldl_cons]
    rw [ih]
    rw [keys_upsert]
    by_cases h : p.1 ∈ A.map (fun q => q.1)
    · rw [if_pos h]
      constructor
      · rintro (ha | hp)
        · exact Or.inl ha
        · exact Or.inr (List.mem_cons.mpr (Or.inr hp))
      · rintro (ha | hp)
        · exact Or.inl ha
        · rcases List.mem_cons.mp hp with rfl | hp'
          · exact Or.inl h
          · exact Or.inr hp'
    · rw [if_neg h]
      simp only [List.mem_append, List.mem_singleton, List.map_cons,
        List.mem_cons]
      tauto

theorem keys_accW_nodup (ps : List (Mood × ℚ)) :
    ∀ (A : List (Mood × ℚ × ℕ)),
      (A.map (fun p => p.1)).Nodup →
      ((ps.foldl (fun acc p => upsertWeight acc p.1 p.2) A).map
        (fun p => p.1)).Nodup := by
  induction ps with
  | nil => intro A h; exact h
  | cons p ps ih =>
    intro A h
    simp only [List.foldl_cons]
    apply ih
    rw [keys_upsert]
    by_cases hm : p.1 ∈ A.map (fun q => q.1)
    · rw [if_pos hm]; exact h
    · rw [if_neg hm]
      simp [List.nodup_append, h, hm]

theorem wOf_cOf_of_mem (A : List (Mood × ℚ × ℕ))
    (h : (A.map (fun p => p.1)).Nodup) :
    ∀ e ∈ A, wOf A e.1 = e.2.1 ∧ cOf A e.1 = e.2.2 := by
  induction A with
  | nil => simp
  | cons a rest ih =>
    intro e he
    rcases List.mem_cons.mp he with rfl | hr
    · simp [wOf, cOf]
    · rw [List.map_cons] at h
      obtain ⟨ha, hrest⟩ := List.nodup_cons.mp h
      have hne : a.1 ≠ e.1 := fun heq => ha (by
        rw [heq]
        exact List.mem_map.mpr ⟨e, hr, rfl⟩)
      have hrec := ih hrest e hr
      simp [wOf, cOf, hne, hrec]

theorem pyMax_foldl_spec (xs : List (Mood × ℚ × ℕ)) :
    ∀ x : Mood × ℚ × ℕ,
      (xs.foldl (fun b p => if b.2.1 < p.2.1 then p else b) x) ∈ x :: xs ∧
      x.2.1 ≤ (xs.foldl (fun b p => if b.2.1 < p.2.1 then p else b) x).2.1 ∧
      ∀ y ∈ xs,
        y.2.1 ≤ (xs.foldl (fun b p => if b.2.1 < p.2.1 then p else b) x).2.1
    := by
  induction xs with
  | nil => intro x; exact ⟨List.mem_cons_self _ _, le_refl _, by simp⟩
  | cons z zs ih =>
    intro x
    simp only [List.foldl_cons]
    obtain ⟨hmem, hle, hall⟩ := ih (if x.2.1 < z.2.1 then z else x)
    have hx' : x.2.1 ≤ (if x.2.1 < z.2.1 then z else x).2.1 := by
      by_cases hc : x.2.1 < z.2.1
      · rw [if_pos hc]; exact le_of_lt hc
      · rw [if_neg hc]
    have hz' : z.2.1 ≤ (if x.2.1 < z.2.1 then z else x).2.1 := by
      by_cases hc : x.2.1 < z.2.1
      · rw [if_pos hc]
      · rw [if_neg hc]; exact le_of_not_lt hc
    refine ⟨?_, le_trans hx' hle, ?_⟩
    · rcases List.mem_cons.mp hmem with hfold | hfold
      · rw [hfold]
        by_cases hc : x.2.1 < z.2.1
        · rw [if_pos hc]
          exact List.mem_cons.mpr (Or.inr (List.mem_cons_self _ _))
        · rw [if_neg hc]
          exact List.mem_cons_self _ _
      · exact List.mem_cons.mpr
          (Or.inr (List.mem_cons.mpr (Or.inr hfold)))
    · intro y hy
      rcases List.mem_cons.mp hy with rfl | hy'
      · exact le_trans hz' hle
      · exact hall y hy'

theorem wsum_cons (p : Mood × ℚ) (ps : List (Mood × ℚ)) (m : Mood) :
    wsum (p :: ps) m = (if p.1 = m then p.2 else 0) + wsum ps m := by
  by_cases h : p.1 = m <;> simp [wsum, List.filter_cons, h]

theorem csum_cons (p : Mood × ℚ) (ps : List (Mood × ℚ)) (m : Mood) :
    csum (p :: ps) m = (if p.1 = m then 1 else 0) + csum ps m := by
  by_cases h : p.1 = m <;> simp [csum, List.filter_cons, h] <;> omega

theorem wsum_map_entry (I : Mood → ℚ) (n : ℕ)
    (l : List (ℕ × MoodObservation)) (m : Mood) :
    wsum (l.map (fun p => (p.2.mood, entry_weight I n p.1 p.2))) m =
      ((l.filter (fun p => p.2.mood = m)).map
        (fun p => entry_weight I n p.1 p.2)).sum := by
  induction l with
  | nil => simp [wsum]
  | cons p l ih =>
    by_cases h : p.2.mood = m <;>
      simp [wsum_cons, List.filter_cons, h, ih]

theorem csum_map_entry (I : Mood → ℚ) (n : ℕ)
    (l : List (ℕ × MoodObservation)) (m : Mood) :
    csum (l.map (fun p => (p.2.mood, entry_weight I n p.1 p.2))) m =
      (l.filter (fun p => p.2.mood = m)).length := by
  induction l with
  | nil => simp [csum]
  | cons p l ih =>
    by_cases h : p.2.mood = m <;>
      simp [csum_cons, List.filter_cons, h, ih] <;> omega

theorem length_filter_enumFrom (p : MoodObservation → Bool) :
    ∀ (n : ℕ) (l : List MoodObservation),
      ((List.enumFrom n l).filter (fun q => p q.2)).length =
        (l.filter p).length := by
  intro n l
  induction l generalizing n with
  | nil => simp
  | cons a l ih =>
    rw [List.enumFrom_cons]
    by_cases h : p a <;> simp [List.filter_cons, h, ih]

theorem map_fst_weight_pairs (I : Mood → ℚ) (entries : List MoodObservation) :
    (weight_pairs I entries).map (fun p => p.1) =
      entries.map (fun e => e.mood) := by
  unfold weight_pairs
  rw [List.map_map]
  have h1 : ((fun q : Mood × ℚ => q.1) ∘
      (fun p : ℕ × MoodObservation =>
        (p.2.mood, entry_weight I entries.length p.1 p.2))) =
      ((fun e : MoodObservation => e.mood) ∘ Prod.snd) := rfl
  rw [h1, ← List.map_map, List.enum_map_snd]

theorem accW_ne_nil (ps : List (Mood × ℚ)) (h : ps ≠ []) : accW ps ≠ [] := by
  cases ps with
  | nil => exact absurd rfl h
  | cons p ps' =>
    intro hnil
    have hm := (mem_keys_accW_aux (p :: ps') [] p.1).mpr (Or.inr (by simp))
    unfold accW at hnil
    rw [hnil] at hm
    simp at hm

/-- C2: the windowed voter returns the current mood when no history entry
is inside the window; otherwise the returned mood is the winning label of
the claim's accumulated weights (confidence times time weight times
intensity), overridden to neutral exactly when the winner is non-neutral
with occurrence count below 2. -/
theorem get_stable_mood_spec (intensity : Mood → ℚ)
    (hist : List MoodObservation) (current : Mood) (window now : ℚ) :
    (within_window hist window now = [] →
      get_stable_mood intensity hist current window now = current) ∧
    (within_window hist window now ≠ [] →
      ∃ b : Mood,
        b ∈ (within_window hist window now).map (fun e => e.mood) ∧
        (∀ m ∈ (within_window hist window now).map (fun e => e.mood),
          spec_weight intensity (within_window hist window now) m ≤
            spec_weight intensity (within_window hist window now) b) ∧
        get_stable_mood intensity hist current window now =
          (if b ≠ Mood.neutral ∧
              spec_count (within_window hist window now) b < 2
            then Mood.neutral else b)) := by
  constructor
  · intro hempty
    unfold get_stable_mood
    rw [hempty]
    rfl
  · intro hne
    have hps_ne : weight_pairs intensity (within_window hist window now) ≠
        [] := by
      intro hh
      apply hne
      unfold weight_pairs at hh
      exact List.enum_eq_nil.mp (List.map_eq_nil.mp hh)
    have hA_ne : accW (weight_pairs intensity (within_window hist window now))
        ≠ [] := accW_ne_nil _ hps_ne
    obtain ⟨x, xs, hAx⟩ : ∃ x xs,
        accW (weight_pairs intensity (within_window hist window now)) =
          x :: xs := by
      cases hA : accW (weight_pairs intensity (within_window hist window now))
        with
      | nil => exact absurd hA hA_ne
      | cons x xs => exact ⟨x, xs, rfl⟩
    obtain ⟨hmem, hlex, hall⟩ := pyMax_foldl_spec xs x
    have hpy : pyMax
        (accW (weight_pairs intensity (within_window hist window now))) =
        some (xs.foldl (fun b p => if b.2.1 < p.2.1 then p else b) x) := by
      rw [hAx]; rfl
    have hmemA : (xs.foldl (fun b p => if b.2.1 < p.2.1 then p else b) x) ∈
        accW (weight_pairs intensity (within_window hist window now)) := by
      rw [hAx]; exact hmem
    have hall' : ∀ y ∈
        accW (weight_pairs intensity (within_window hist window now)),
        y.2.1 ≤ (xs.foldl (fun b p => if b.2.1 < p.2.1 then p else b) x).2.1
        := by
      intro y hy
      rw [hAx] at hy
      rcases List.mem_cons.mp hy with rfl | hy'
      · exact hlex
      · exact hall y hy'
    have hnodup : ((accW (weight_pairs intensity
        (within_window hist window now))).map (fun p => p.1)).Nodup := by
      unfold accW
      exact keys_accW_nodup _ [] (by simp)
    have hwOf : ∀ m, wOf
        (accW (weight_pairs intensity (within_window hist window now))) m =
        spec_weight intensity (within_window hist window now) m := by
      intro m
      unfold accW
      rw [wOf_accW_aux]
      have h0 : wOf [] m = 0 := rfl
      rw [h0, zero_add]
      unfold weight_pairs
      rw [wsum_map_entry]
      rfl
    have hcOf : ∀ m, cOf
        (accW (weight_pairs intensity (within_window hist window now))) m =
        spec_count (within_window hist window now) m := by
      intro m
      unfold accW
      rw [cOf_accW_aux]
      have h0 : cOf [] m = 0 := rfl
      rw [h0, Nat.zero_add]
      unfold weight_pairs
      rw [csum_map_entry]
      unfold spec_count
      rw [List.enum_eq_enumFrom]
      exact length_filter_enumFrom (fun e => decide (e.mood = m)) 0 _
    have hbw := wOf_cOf_of_mem _ hnodup _ hmemA
    refine ⟨(xs.foldl (fun b p => if b.2.1 < p.2.1 then p else b) x).1,
      ?_, ?_, ?_⟩
    · have hk : (xs.foldl (fun b p => if b.2.1 < p.2.1 then p else b) x).1 ∈
          (accW (weight_pairs intensity
            (within_window hist window now))).map (fun p => p.1) :=
        List.mem_map.mpr ⟨_, hmemA, rfl⟩
      unfold accW at hk
      rcases (mem_keys_accW_aux _ [] _).mp hk with h | h
      · simp at h
      · rw [map_fst_weight_pairs] at h
        exact h
    · intro m hm
      have hmk : m ∈ (accW (weight_pairs intensity
          (within_window hist window now))).map (fun p => p.1) := by
        unfold accW
        apply (mem_keys_accW_aux _ [] m).mpr
        right
        rw [map_fst_weight_pairs]
        exact hm
      obtain ⟨e, heA, he1⟩ := List.mem_map.mp hmk
      have hee := wOf_cOf_of_mem _ hnodup e heA
      have hle := hall' e heA
      rw [← hwOf m, ← hwOf _, ← he1, hee.1, hbw.1]
      exact hle
    · unfold get_stable_mood
      rw [hpy]
      have hcount : (xs.foldl (fun b p => if b.2.1 < p.2.1 then p else b)
          x).2.2 = spec_count (within_window hist window now)
          (xs.foldl (fun b p => if b.2.1 < p.2.1 then p else b) x).1 := by
        rw [← hbw.2, hcOf]
      simp only []
      rw [hcount]

/-- Witness for `get_stable_mood_spec`: a window holding two angry
observations names angry as a maximal-weight label. -/
theorem get_stable_mood_spec_witness :
    ∃ b : Mood,
      b ∈ (within_window
        [⟨Mood.angry, 3/5, 90⟩, ⟨Mood.angry, 1/2, 92⟩] 15 100).map
          (fun e => e.mood) ∧
      (∀ m ∈ (within_window
          [⟨Mood.angry, 3/5, 90⟩, ⟨Mood.angry, 1/2, 92⟩] 15 100).map
            (fun e => e.mood),
        spec_weight emotion_intensity (within_window
          [⟨Mood.angry, 3/5, 90⟩, ⟨Mood.angry, 1/2, 92⟩] 15 100) m ≤
          spec_weight emotion_intensity (within_window
            [⟨Mood.angry, 3/5, 90⟩, ⟨Mood.angry, 1/2, 92⟩] 15 100) b) ∧
      get_stable_mood emotion_intensity
          [⟨Mood.angry, 3/5, 90⟩, ⟨Mood.angry, 1/2, 92⟩] Mood.neutral 15 100 =
        (if b ≠ Mood.neutral ∧
            spec_count (within_window
              [⟨Mood.angry, 3/5, 90⟩, ⟨Mood.angry, 1/2, 92⟩] 15 100) b < 2
          then Mood.neutral else b) :=
  (get_stable_mood_spec emotion_intensity
      [⟨Mood.angry, 3/5, 90⟩, ⟨Mood.angry, 1/2, 92⟩] Mood.neutral 15 100).2
    (by
      norm_num [within_window]
      exact List.cons_ne_nil _ _)

/-- C3 counterexample: with the in-window history angry(0.6), angry(0.5),
surprise(0.9) oldest-first, the single surprise observation accumulates
weight 0.9 * 1 * 0.8 = 0.72 > 8/15 (angry), its occurrence count is 1
(so the claim says the result stays angry), yet the guard overrides the
winner to neutral, not angry. -/
theorem get_stable_mood_spike_counterexample :
    get_stable_mood emotion_intensity
        [⟨Mood.angry, 3/5, 90⟩, ⟨Mood.angry, 1/2, 92⟩,
         ⟨Mood.surprise, 9/10, 94⟩] Mood.neutral 15 100 = Mood.neutral ∧
      spec_count (within_window
        [⟨Mood.angry, 3/5, 90⟩, ⟨Mood.angry, 1/2, 92⟩,
         ⟨Mood.surprise, 9/10, 94⟩] 15 100) Mood.surprise = 1 ∧
      spec_weight emotion_intensity (within_window
            [⟨Mood.angry, 3/5, 90⟩, ⟨Mood.angry, 1/2, 92⟩,
             ⟨Mood.surprise, 9/10, 94⟩] 15 100) Mood.angry <
        spec_weight emotion_intensity (within_window
            [⟨Mood.angry, 3/5, 90⟩, ⟨Mood.angry, 1/2, 92⟩,
             ⟨Mood.surprise, 9/10, 94⟩] 15 100) Mood.surprise ∧
      Mood.neutral ≠ Mood.angry := by
  refine ⟨?_, ?_, ?_, by decide⟩
  · norm_num [get_stable_mood, within_window, weight_pairs, entry_weight,
      accW, upsertWeight, pyMax, emotion_intensity, List.enum, List.enumFrom,
      (show Mood.angry ≠ Mood.surprise by decide),
      (show Mood.surprise ≠ Mood.neutral by decide),
      (show Mood.angry ≠ Mood.neutral by decide)]
  · norm_num [spec_count, within_window, List.filter_cons,
      (show Mood.angry ≠ Mood.surprise by decide)]
  · norm_num [spec_weight, within_window, entry_weight, emotion_intensity,
      List.enum, List.enumFrom, List.filter_cons,
      (show Mood.angry ≠ Mood.surprise by decide),
      (show Mood.surprise ≠ Mood.angry by decide)]

/-- C3 (amended): two in-window angry observations (0.6 then 0.5) make the
voter return angry; adding a single surprise(0.9) observation never makes
the result surprise — the result stays angry while surprise accumulates
less weight than angry (surprise oldest or middle), and is overridden to
neutral, not surprise, when the surprise spike out-weighs angry (surprise
newest). -/
theorem get_stable_mood_spike_spec :
    get_stable_mood emotion_intensity
        [⟨Mood.angry, 3/5, 90⟩, ⟨Mood.angry, 1/2, 92⟩] Mood.neutral 15 100 =
      Mood.angry ∧
    get_stable_mood emotion_intensity
        [⟨Mood.surprise, 9/10, 90⟩, ⟨Mood.angry, 3/5, 92⟩,
         ⟨Mood.angry, 1/2, 94⟩] Mood.neutral 15 100 = Mood.angry ∧
    get_stable_mood emotion_intensity
        [⟨Mood.angry, 3/5, 90⟩, ⟨Mood.surprise, 9/10, 92⟩,
         ⟨Mood.angry, 1/2, 94⟩] Mood.neutral 15 100 = Mood.angry ∧
    get_stable_mood emotion_intensity
        [⟨Mood.angry, 3/5, 90⟩, ⟨Mood.angry, 1/2, 92⟩,
         ⟨Mood.surprise, 9/10, 94⟩] Mood.neutral 15 100 = Mood.neutral ∧
    Mood.angry ≠ Mood.surprise ∧ Mood.neutral ≠ Mood.surprise := by
  refine ⟨?_, ?_, ?_, ?_, by decide, by decide⟩ <;>
    norm_num [get_stable_mood, within_window, weight_pairs, entry_weight,
      accW, upsertWeight, pyMax, emotion_intensity, List.enum, List.enumFrom,
      (show Mood.angry ≠ Mood.surprise by decide),
      (show Mood.surprise ≠ Mood.angry by decide),
      (show Mood.surprise ≠ Mood.neutral by decide),
      (show Mood.angry ≠ Mood.neutral by decide)]

/-! ## Mood decision loop (`mood_monitor_loop` in app.py) -/

/-- What one decision-loop tick observes: the wall clock, the windowed
stable mood and the current mood confidence read from the detector, and
the auto-play flag. -/
structure LoopTick where
  now : ℚ
  stable : Mood
  confidence : ℚ
  autoPlay : Bool
deriving DecidableEq, Repr

/-- The loop-visible mutable state: the mood category the playback engine
currently serves (`music_manager.current_mood`) and
`app_state['last_mood_change']`. -/
structure LoopState where
  served : Mood
  lastMoodChange : ℚ
deriving DecidableEq, Repr

/-- The `should_change_mood` computation of one tick (app.py lines
299-310): a differing stable mood switches when the current confidence
exceeds 0.4, or exceeds 0.3 for the strong moods happy, sad, angry. -/
def should_change_mood (st : LoopState) (tk : LoopTick) : Bool :=
  decide (tk.stable ≠ st.served) &&
    (decide (tk.confidence > 2/5) ||
      (decide (tk.stable = Mood.happy ∨ tk.stable = Mood.sad ∨
        tk.stable = Mood.angry) && decide (tk.confidence > 3/10)))

/-- One tick of `mood_monitor_loop` (app.py lines 284-322): inside the
auto-play branch the cooldown check guards the switch logic; on a switch,
`play_mood_music(stable)` makes the manager serve `stable` (the moods
differ whenever `should_change_mood` holds, so its inner no-op guard does
not fire) and `last_mood_change` is set to the tick's time. Returns the
new state and whether `play_mood_music` was invoked. -/
def mood_monitor_step (cooldown : ℚ) (st : LoopState) (tk : LoopTick) :
    LoopState × Bool :=
  if tk.autoPlay then
    if tk.now - st.lastMoodChange > cooldown then
      if should_change_mood st tk then (⟨tk.stable, tk.now⟩, true)
      else (st, false)
    else (st, false)
  else (st, false)

/-- Running the loop over a sequence of ticks, counting
`play_mood_music` invocations. -/
def mood_monitor_run (cooldown : ℚ) (st : LoopState) :
    List LoopTick → LoopState × ℕ
  | [] => (st, 0)
  | tk :: rest =>
    let s1 := mood_monitor_step cooldown st tk
    let s2 := mood_monitor_run cooldown s1.1 rest
    (s2.1, (if s1.2 then 1 else 0) + s2.2)

theorem mood_monitor_run_no_switch (cooldown : ℚ) (ticks : List LoopTick) :
    ∀ st : LoopState,
      (∀ tk ∈ ticks, tk.now - st.lastMoodChange ≤ cooldown) →
      mood_monitor_run cooldown st ticks = (st, 0) := by
  induction ticks with
  | nil => intro st _; rfl
  | cons tk rest ih =>
    intro st h
    have hstep : mood_monitor_step cooldown st tk = (st, false) := by
      unfold mood_monitor_step
      have hc : ¬ (tk.now - st.lastMoodChange > cooldown) :=
        not_lt.mpr (h tk (List.mem_cons_self _ _))
      by_cases ha : tk.autoPlay
      · rw [if_pos ha, if_neg hc]
      · rw [if_neg (by simp [ha])]
    have hrest := ih st (fun tk' h' => h tk' (List.mem_cons_of_mem _ h'))
    simp [mood_monitor_run, hstep, hrest]

theorem mood_monitor_run_at_most_one (cooldown : ℚ) (ticks : List LoopTick) :
    ∀ st : LoopState,
      (∀ a ∈ ticks, ∀ b ∈ ticks, a.now - b.now ≤ cooldown) →
      (mood_monitor_run cooldown st ticks).2 ≤ 1 := by
  induction ticks with
  | nil => intro st _; simp [mood_monitor_run]
  | cons tk rest ih =>
    intro st h
    by_cases hsw : (mood_monitor_step cooldown st tk).2 = true
    · have hst1 : (mood_monitor_step cooldown st tk).1 =
          ⟨tk.stable, tk.now⟩ := by
        unfold mood_monitor_step at hsw ⊢
        split_ifs at hsw ⊢ <;> simp_all
      have hzero := mood_monitor_run_no_switch cooldown rest
        ⟨tk.stable, tk.now⟩ (fun tk' h' => by
          have := h tk' (List.mem_cons_of_mem _ h') tk
            (List.mem_cons_self _ _)
          simpa using this)
      simp [mood_monitor_run, hsw, hst1, hzero]
    · have hsw' : (mood_monitor_step cooldown st tk).2 = false := by
        cases hb : (mood_monitor_step cooldown st tk).2
        · rfl
        · exact absurd hb hsw
      have hst1 : (mood_monitor_step cooldown st tk).1 = st := by
        unfold mood_monitor_step at hsw' ⊢
        split_ifs at hsw' ⊢ <;> simp_all
      have hrest := ih st (fun a ha b hb =>
        h a (List.mem_cons_of_mem _ ha) b (List.mem_cons_of_mem _ hb))
      simp [mood_monitor_run, hsw', hst1]
      exact hrest

/-- C7: once a switch has stamped `last_mood_change` with time `t`, no
tick with `now - t <= cooldown` switches again (the run from such a state
performs zero switch calls); over any tick sequence whose times pairwise
differ by at most the cooldown, at most one switch happens; and the
concrete two-transitions-3-seconds-apart scenario under an 8-second
cooldown makes exactly one `play_mood_music` call. -/
theorem mood_monitor_cooldown_spec (cooldown : ℚ) (st : LoopState)
    (ticks : List LoopTick) :
    ((∀ tk ∈ ticks, tk.now - st.lastMoodChange ≤ cooldown) →
      mood_monitor_run cooldown st ticks = (st, 0)) ∧
    ((∀ a ∈ ticks, ∀ b ∈ ticks, a.now - b.now ≤ cooldown) →
      (mood_monitor_run cooldown st ticks).2 ≤ 1) ∧
    (mood_monitor_run 8 ⟨Mood.neutral, 0⟩
        [⟨10, Mood.happy, 9/10, true⟩, ⟨13, Mood.sad, 9/10, true⟩]).2 = 1
    := by
  refine ⟨mood_monitor_run_no_switch cooldown ticks st,
    mood_monitor_run_at_most_one cooldown ticks st, ?_⟩
  norm_num [mood_monitor_run, mood_monitor_step, should_change_mood,
    (show Mood.happy ≠ Mood.neutral by decide),
    (show Mood.sad ≠ Mood.happy by decide)]

/-- Witness for `mood_monitor_cooldown_spec`: a tick one second after a
switch does nothing under an 8-second cooldown. -/
theorem mood_monitor_cooldown_spec_witness :
    mood_monitor_run 8 ⟨Mood.neutral, 20⟩
        [⟨21, Mood.happy, 9/10, true⟩] = (⟨Mood.neutral, 20⟩, 0) :=
  (mood_monitor_cooldown_spec 8 ⟨Mood.neutral, 20⟩
      [⟨21, Mood.happy, 9/10, true⟩]).1
    (by
      intro tk htk
      rcases List.mem_singleton.mp htk with rfl
      norm_num)

/-- C8: on an auto-play tick whose cooldown has elapsed, an unchanged
stable mood does nothing, and a changed stable mood switches exactly when
the current confidence exceeds 0.4 or the stable mood is happy, sad or
angry and it exceeds 0.3. -/
theorem mood_monitor_gate_spec (cooldown : ℚ) (st : LoopState)
    (tk : LoopTick) (hauto : tk.autoPlay = true)
    (hcool : tk.now - st.lastMoodChange > cooldown) :
    (tk.stable = st.served →
      mood_monitor_step cooldown st tk = (st, false)) ∧
    (tk.stable ≠ st.served →
      ((mood_monitor_step cooldown st tk).2 = true ↔
        (tk.confidence > 2/5 ∨
          ((tk.stable = Mood.happy ∨ tk.stable = Mood.sad ∨
            tk.stable = Mood.angry) ∧ tk.confidence > 3/10)))) := by
  constructor
  · intro heq
    unfold mood_monitor_step
    rw [if_pos (by simp [hauto]), if_pos hcool,
      if_neg (by simp [should_change_mood, heq])]
  · intro hne
    unfold mood_monitor_step
    rw [if_pos (by simp [hauto]), if_pos hcool]
    by_cases hb : should_change_mood st tk = true
    · rw [if_pos (by simp [hb])]
      unfold should_change_mood at hb
      simp [hne] at hb
      simp [hb]
    · have hb' : should_change_mood st tk = false := by
        cases hx : should_change_mood st tk
        · rfl
        · exact absurd hx hb
      rw [if_neg (by simp [hb'])]
      unfold should_change_mood at hb'
      simp [hne] at hb'
      simp
      exact hb'

/-- Witness for `mood_monitor_gate_spec`: a stable happy mood at
confidence 0.35 with served neutral switches through the strong-emotion
bar. -/
theorem mood_monitor_gate_spec_witness :
    (mood_monitor_step 8 ⟨Mood.neutral, 0⟩
        ⟨10, Mood.happy, 7/20, true⟩).2 = true :=
  ((mood_monitor_gate_spec 8 ⟨Mood.neutral, 0⟩
        ⟨10, Mood.happy, 7/20, true⟩ rfl (by norm_num)).2
      (by decide)).mpr
    (Or.inr ⟨Or.inl rfl, by norm_num⟩)

/-! ## Detector state, purity of the voter, and the detection-loop
pre-filter -/

/-- The engine-relevant mutable fields of the `MoodDetector` instance. -/
structure MoodDetectorState where
  current_mood : Mood
  mood_confidence : ℚ
  mood_history : List MoodObservation
  emotion_history : Mood → List ℚ
  intensity : Mood → ℚ
  thresholds : Mood → ℚ
  emotion_smoothing : ℚ

/-- `get_stable_mood` as a state transformer: the method reads
`mood_history`, `current_mood` and `emotion_intensity` and performs no
assignment, so the state component of the result is the input state. -/
def get_stable_mood_st (st : MoodDetectorState) (window now : ℚ) :
    Mood × MoodDetectorState :=
  (get_stable_mood st.intensity st.mood_history st.current_mood window now,
    st)

/-- C9: the voter leaves the detector state untouched, two states agreeing
on the fields the voter reads produce the same mood, and a repeated call on
the state returned by the first call yields the same mood. -/
theorem get_stable_mood_pure (st st' : MoodDetectorState) (window now : ℚ)
    (hh : st.mood_history = st'.mood_history)
    (hc : st.current_mood = st'.current_mood)
    (hi : st.intensity = st'.intensity) :
    (get_stable_mood_st st window now).2 = st ∧
    (get_stable_mood_st st window now).1 =
      (get_stable_mood_st st' window now).1 ∧
    (get_stable_mood_st (get_stable_mood_st st window now).2 window now).1 =
      (get_stable_mood_st st window now).1 := by
  refine ⟨rfl, ?_, rfl⟩
  unfold get_stable_mood_st
  rw [hh, hc, hi]

/-- Witness for `get_stable_mood_pure` at a concrete small state. -/
theorem get_stable_mood_pure_witness :
    (get_stable_mood_st
        ⟨Mood.neutral, 0, [⟨Mood.happy, 1/2, 1⟩], fun _ => [],
          emotion_intensity, emotion_thresholds, 3/5⟩ 15 100).2 =
      ⟨Mood.neutral, 0, [⟨Mood.happy, 1/2, 1⟩], fun _ => [],
        emotion_intensity, emotion_thresholds, 3/5⟩ :=
  (get_stable_mood_pure
      ⟨Mood.neutral, 0, [⟨Mood.happy, 1/2, 1⟩], fun _ => [],
        emotion_intensity, emotion_thresholds, 3/5⟩
      ⟨Mood.neutral, 0, [⟨Mood.happy, 1/2, 1⟩], fun _ => [],
        emotion_intensity, emotion_thresholds, 3/5⟩
      15 100 rfl rfl rfl).1

/-- The mood-update section of `_detection_loop` (mood_detector.py lines
119-133), after `_get_dominant_emotion` has produced the candidate:
the per-emotion threshold pre-filter guards the Stability Gate, and only
an accepted candidate overwrites the current mood, its confidence, and
the history ring (`mood_mapping` is the identity on the seven labels). -/
def detection_step (st : MoodDetectorState) (dominant : Mood)
    (confidence now : ℚ) : MoodDetectorState :=
  if confidence > st.thresholds dominant then
    if is_mood_stable st.mood_history dominant confidence then
      { st with
          current_mood := dominant
          mood_confidence := confidence
          mood_history :=
            update_mood_history st.mood_history dominant confidence now }
    else st
  else st

/-- C10: a candidate whose confidence does not exceed its per-emotion
threshold changes nothing (the gate is never reached); a candidate the
gate rejects also changes nothing; and the default thresholds are
sad 0.15, happy 0.25, angry 0.30, fear 0.25, surprise 0.25, disgust 0.25,
neutral 0.20, with the global fallback threshold 0.20. -/
theorem detection_threshold_spec (st : MoodDetectorState) (d : Mood)
    (c now : ℚ) :
    (c ≤ st.thresholds d → detection_step st d c now = st) ∧
    (is_mood_stable st.mood_history d c = false →
      detection_step st d c now = st) ∧
    (emotion_thresholds Mood.sad = 3/20 ∧
      emotion_thresholds Mood.happy = 1/4 ∧
      emotion_thresholds Mood.angry = 3/10 ∧
      emotion_thresholds Mood.fear = 1/4 ∧
      emotion_thresholds Mood.surprise = 1/4 ∧
      emotion_thresholds Mood.disgust = 1/4 ∧
      emotion_thresholds Mood.neutral = 1/5 ∧
      confidence_threshold = 1/5) := by
  refine ⟨?_, ?_, by norm_num [emotion_thresholds, confidence_threshold]⟩
  · intro h
    unfold detection_step
    rw [if_neg (not_lt.mpr h)]
  · intro h
    unfold detection_step
    by_cases hc : c > st.thresholds d
    · rw [if_pos hc, if_neg (by simp [h])]
    · rw [if_neg hc]

/-- Witness for `detection_threshold_spec`: a happy candidate at exactly
the global threshold 0.20 is filtered out before the gate. -/
theorem detection_threshold_spec_witness :
    detection_step
        ⟨Mood.neutral, 0, [], fun _ => [], emotion_intensity,
          emotion_thresholds, 3/5⟩ Mood.happy (1/5) 0 =
      ⟨Mood.neutral, 0, [], fun _ => [], emotion_intensity,
        emotion_thresholds, 3/5⟩ :=
  (detection_threshold_spec
      ⟨Mood.neutral, 0, [], fun _ => [], emotion_intensity,
        emotion_thresholds, 3/5⟩ Mood.happy (1/5) 0).1
    (by norm_num [emotion_thresholds])

end MusicMood
